import Mathlib

/-!
Verification of a seam-carving image resizer.

The program reduces a W×H colour image to a strictly smaller target width and
height by repeatedly removing one-pixel-wide minimum-energy vertical seams
(and, after transposing, horizontal ones).  This file shallowly embeds the
four components of the core — the energy-map builder `energyCal`, the
dynamic-programming seam finder `seamSearch`, the seam remover
`removeVerSeam`, and the resizer driver `seamCar` — and proves the claimed
properties about them.

Modelling conventions:
* Images are lists of rows, each row a list of `Pix` (BGR channel triples);
  `Rect img w h` states the rectangularity invariant the image container
  maintains.
* C `double` values and their arithmetic are modelled by real numbers.  Every
  property proved here depends only on the linearly-ordered additive
  structure of the scalar type, never on rounding, so the generic seam-finder
  theorems are stated over an arbitrary `LinearOrder` with `Add`.
* The in-place cumulative-energy sweep is modelled faithfully as a fold that
  updates one cell of the grid at a time in the source's loop order
  (`cumSweep`); the double-buffered recurrence of the specification is a
  separate definition (`cumE`) and their agreement is proved.
* Process exit (`exit(0)` on invalid input) and the surrounding `main` are
  modelled by `Except`/`Option` results carrying the would-be exit code.
-/

/-- A BGR pixel: three 8-bit channels (blue, green, red), stored as naturals. -/
structure Pix where
  b : Nat
  g : Nat
  r : Nat
  deriving DecidableEq

/-- Number of columns of an image stored as a list of rows (the length of the
first row; OpenCV's `Mat::cols`).  An empty image has width 0. -/
def width {α : Type} (img : List (List α)) : Nat :=
  (img.headD []).length

/-- Rectangularity: `img` has exactly `h` rows and every row has length `w`.
This is the invariant `cv::Mat` maintains by construction. -/
def Rect {α : Type} (img : List (List α)) (w h : Nat) : Prop :=
  img.length = h ∧ ∀ r ∈ img, r.length = w

instance rectDecidable {α : Type} (img : List (List α)) (w h : Nat) :
    Decidable (Rect img w h) :=
  decidable_of_iff (img.length = h ∧ ∀ r ∈ img, r.length = w) Iff.rfl

/-- One row of `removeVerSeam`: copy columns `[0, s)` unchanged and columns
`(s, cols)` shifted left by one (the source's two copy loops). -/
def remRow {α : Type} (row : List α) (s : Nat) : List α :=
  row.take s ++ row.drop (s + 1)

/-- `removeVerSeam` (source lines 94–115): for each row `i`, drop the pixel in
column `seam[i]` and compact the row.  The output has `cols - 1` columns. -/
def removeVerSeam {α : Type} (img : List (List α)) (seam : List Nat) : List (List α) :=
  List.zipWith remRow img seam

/-- Modelled from the spec: `cv::transpose`, the external transpose primitive
(§6): the rows of the output are the columns of the input. -/
def transposeImg (img : List (List Pix)) : List (List Pix) :=
  (List.range (width img)).map (fun j => img.map (fun row => row.getD j ⟨0, 0, 0⟩))

/-- Modelled from the spec: `cvtColor(..., COLOR_BGR2GRAY)`, the external
BT.601-like luminance conversion (§4.1, §6); the spec states the exact
coefficients are not load-bearing. -/
def luma (p : Pix) : Nat :=
  (299 * p.r + 587 * p.g + 114 * p.b) / 1000

/-- The grayscale buffer of an image, as a function of (row, column). -/
def grayAt (img : List (List Pix)) (y x : Nat) : Nat :=
  luma ((img.getD y []).getD x ⟨0, 0, 0⟩)

/-- Horizontal gradient `grad_x` at `(y, x)` (source lines 24–29): central
difference at interior columns, forward at the left edge, backward at the
right edge, 0 otherwise.  Grayscale values are 8-bit, so the signed
differences are exact integers in [−255, 255]. -/
def gradX (gray : Nat → Nat → Nat) (w y x : Nat) : ℤ :=
  if 0 < x ∧ x + 1 < w then (gray y (x + 1) : ℤ) - (gray y (x - 1) : ℤ)
  else if x = 0 ∧ 1 < w then (gray y (x + 1) : ℤ) - (gray y x : ℤ)
  else if x + 1 = w ∧ 1 < w then (gray y x : ℤ) - (gray y (x - 1) : ℤ)
  else 0

/-- Vertical gradient `grad_y` at `(y, x)` (source lines 31–36), symmetric to
`gradX` with rows substituted for columns. -/
def gradY (gray : Nat → Nat → Nat) (h y x : Nat) : ℤ :=
  if 0 < y ∧ y + 1 < h then (gray (y + 1) x : ℤ) - (gray (y - 1) x : ℤ)
  else if y = 0 ∧ 1 < h then (gray (y + 1) x : ℤ) - (gray y x : ℤ)
  else if y + 1 = h ∧ 1 < h then (gray y x : ℤ) - (gray (y - 1) x : ℤ)
  else 0

/-- Per-pixel energy (source line 38): `sqrt(grad_x*grad_x + grad_y*grad_y)`. -/
noncomputable def energyAt (gray : Nat → Nat → Nat) (h w y x : Nat) : ℝ :=
  Real.sqrt ((gradX gray w y x : ℝ) * (gradX gray w y x) +
    (gradY gray h y x : ℝ) * (gradY gray h y x))

/-- An energy field: a scalar grid together with its dimensions (the `Mat`
returned by `energyCal`; `seamSearch` reads `rows` and `cols` from it). -/
structure EField where
  rows : Nat
  cols : Nat
  val : Nat → Nat → ℝ

/-- `energyCal` (source lines 8–43): grayscale conversion followed by the
gradient-magnitude energy; the result has the image's dimensions
(`Mat::zeros(height, width)`). -/
noncomputable def energyCal (img : List (List Pix)) : EField :=
  ⟨img.length, width img,
    fun y x => energyAt (grayAt img) img.length (width img) y x⟩

section SeamFinder

variable {α : Type} [LinearOrder α]

/-- The minimum of the up-to-three upper neighbours read from row `i − 1`
(source lines 58–62): start from the straight-above cell, then fold in the
upper-left (if `j > 0`) and upper-right (if `j < cols − 1`) cells. -/
def upMin3 (prev : Nat → α) (cols j : Nat) : α :=
  let m1 := prev j
  let m2 := if 0 < j then min m1 (prev (j - 1)) else m1
  if j + 1 < cols then min m2 (prev (j + 1)) else m2

/-- Point update of a grid-valued function: the model of one in-place write
`cumulativeEnergy.at(i, j) = v`. -/
def setCell (g : Nat → Nat → α) (i j : Nat) (v : α) : Nat → Nat → α :=
  fun i' j' => if i' = i ∧ j' = j then v else g i' j'

/-- One pass of the inner loop of the DP (source lines 56–64): for `j` from 0
to `cols − 1`, overwrite cell `(i, j)` in place with its own value plus the
minimum of its upper neighbours. -/
def rowPass [Add α] (cols i : Nat) (g : Nat → Nat → α) : Nat → Nat → α :=
  (List.range cols).foldl
    (fun g' j => setCell g' i j (g' i j + upMin3 (g' (i - 1)) cols j)) g

/-- The full in-place cumulative-energy sweep (source lines 50–65): start from
a clone of the energy field and run `rowPass` for `i` from 1 to `rows − 1`. -/
def cumSweep [Add α] (e : Nat → Nat → α) (rows cols : Nat) : Nat → Nat → α :=
  (List.range' 1 (rows - 1)).foldl (fun g i => rowPass cols i g) e

/-- The double-buffered recurrence the specification states for the cumulative
energy field (§4.2 step 2): row 0 is the energy row 0, and each later cell is
its own energy plus the minimum of its upper neighbours in the previous row. -/
def cumE [Add α] (e : Nat → Nat → α) (cols : Nat) : Nat → Nat → α
  | 0, j => e 0 j
  | i + 1, j => e (i + 1) j + upMin3 (cumE e cols i) cols j

/-- Modelled from the spec: `cv::minMaxLoc` on the bottom row (source line 70),
the external minimum search; it scans left to right and reports the first
(leftmost) position of the minimum. -/
def argminLeft (f : Nat → α) (cols : Nat) : Nat :=
  (List.range cols).foldl (fun best j => if f j < f best then j else best) 0

/-- One step of the upward backtracking (source lines 76–88): starting from
`prev = seam[i+1]`, compare the upper-left and upper-right cells against the
running minimum with strict less-than, in the order (straight, left, right). -/
def backStep (c : Nat → Nat → α) (cols i prev : Nat) : Nat :=
  let m := c i prev
  let p := if 0 < prev ∧ c i (prev - 1) < m then (prev - 1, c i (prev - 1)) else (prev, m)
  if prev + 1 < cols ∧ c i (prev + 1) < p.2 then prev + 1 else p.1

/-- The seam column `k` rows above the bottom row: at the bottom the leftmost
minimum of the last cumulative row, then `backStep` repeatedly. -/
def seamColAux (c : Nat → Nat → α) (cols bottom : Nat) : Nat → Nat
  | 0 => argminLeft (c bottom) cols
  | k + 1 => backStep c cols (bottom - (k + 1)) (seamColAux c cols bottom k)

/-- The seam column for row `i` of a `rows`-row field. -/
def seamEntry (c : Nat → Nat → α) (rows cols i : Nat) : Nat :=
  seamColAux c cols (rows - 1) (rows - 1 - i)

/-- `seamSearch` (source lines 45–92): run the in-place DP, pick the leftmost
bottom-row minimum, and backtrack upward; the result lists one column index
per row. -/
def seamSearch [Add α] (e : Nat → Nat → α) (rows cols : Nat) : List Nat :=
  (List.range rows).map (fun i => seamEntry (cumSweep e rows cols) rows cols i)

end SeamFinder

/-- One iteration of the driver's reduction loops (source lines 127–129 and
136–138): recompute the energy field, find a seam, remove it.  `seamSearch`
reads the dimensions from the energy field, which has the image's. -/
noncomputable def seamCarStep (img : List (List Pix)) : List (List Pix) :=
  removeVerSeam img
    (seamSearch (energyCal img).val (energyCal img).rows (energyCal img).cols)

/-- The width-reduction loop (source lines 125–131), with explicit fuel.  Out
of contract (a non-positive target, which the driver's precondition excludes)
the underlying library would throw on a degenerate matrix; that and fuel
exhaustion are modelled by `none`.  The fuel `width img` is enough for every
in-contract run, since each iteration removes exactly one column. -/
noncomputable def widthLoopF : Nat → Int → List (List Pix) → Option (List (List Pix))
  | 0, t, img => if (width img : Int) > t then none else some img
  | f + 1, t, img =>
    if (width img : Int) > t then
      if width img = 0 then none else widthLoopF f t (seamCarStep img)
    else some img

/-- `while (img.cols > newWidth)` (source line 125). -/
noncomputable def widthLoop (t : Int) (img : List (List Pix)) : Option (List (List Pix)) :=
  widthLoopF (width img) t img

/-- The height-reduction loop (source lines 133–141): transpose, remove one
vertical seam, transpose back; fuel as in `widthLoopF`. -/
noncomputable def heightLoopF : Nat → Int → List (List Pix) → Option (List (List Pix))
  | 0, t, img => if (img.length : Int) > t then none else some img
  | f + 1, t, img =>
    if (img.length : Int) > t then
      if width img = 0 ∨ img.length = 0 then none
      else heightLoopF f t (transposeImg (seamCarStep (transposeImg img)))
    else some img

/-- `while (img.rows > newHeight)` (source line 133). -/
noncomputable def heightLoop (t : Int) (img : List (List Pix)) : Option (List (List Pix)) :=
  heightLoopF img.length t img

/-- How a run of the driver can fail to return an image. -/
inductive CarveErr where
  /-- The guard at source lines 119–123 fired: the driver printed
  "Invalid Input" and called `exit(0)`. -/
  | invalidInput
  /-- A loop ran outside the driver's contract (degenerate matrix or fuel
  exhaustion); the C++ would throw from the imaging library. -/
  | outOfContract
  deriving DecidableEq

/-- `seamCar` (source lines 117–144): reject targets not strictly smaller than
the current dimensions, then reduce width and afterwards height. -/
noncomputable def seamCar (img : List (List Pix)) (newWidth newHeight : Int) :
    Except CarveErr (List (List Pix)) :=
  if newHeight ≥ (img.length : Int) ∨ newWidth ≥ (width img : Int) then
    .error .invalidInput
  else
    match widthLoop newWidth img with
    | none => .error .outOfContract
    | some img1 =>
      match heightLoop newHeight img1 with
      | none => .error .outOfContract
      | some img2 => .ok img2

/-- The process exit code of `main` (source lines 146–179), parameterised by
the out-of-scope collaborators: whether an image-path argument was given,
what the decoder returned, the two dimensions read from standard input, and
whether the encoder succeeds.  `exit(0)` inside `seamCar` yields exit code 0;
an uncaught library exception has no orderly exit code (`none`). -/
noncomputable def mainExit (argProvided : Bool) (loaded : Option (List (List Pix)))
    (newWidth newHeight : Int) (saveOk : Bool) : Option Int :=
  if argProvided = false then some (-1)
  else
    match loaded with
    | none => some (-1)
    | some img =>
      match seamCar img newWidth newHeight with
      | .error .invalidInput => some 0
      | .error .outOfContract => none
      | .ok _ => if saveOk then some 0 else some (-1)

/-! ### List utilities -/

lemma remRow_length {α : Type} (row : List α) (s : Nat) (hs : s < row.length) :
    (remRow row s).length = row.length - 1 := by
  simp only [remRow, List.length_append, List.length_take, List.length_drop]
  omega

lemma remRow_getD {α : Type} (d : α) :
    ∀ (row : List α) (s j : Nat), s < row.length → j + 1 < row.length →
      (remRow row s).getD j d = if j < s then row.getD j d else row.getD (j + 1) d := by
  intro row
  induction row with
  | nil => intro s j hs _; simp at hs
  | cons a tl ih =>
    intro s j hs hj
    cases s with
    | zero =>
      have h0 : remRow (a :: tl) 0 = tl := by simp [remRow]
      rw [h0]
      simp [List.getD_cons_succ]
    | succ s' =>
      have h1 : remRow (a :: tl) (s' + 1) = a :: remRow tl s' := by
        simp [remRow, List.take_succ_cons, List.drop_succ_cons]
      rw [h1]
      cases j with
      | zero => simp
      | succ j' =>
        simp only [List.getD_cons_succ]
        rw [ih s' j' (by simpa using hs) (by simpa using hj)]
        by_cases hlt : j' < s'
        · rw [if_pos hlt, if_pos (by omega)]
        · rw [if_neg hlt, if_neg (by omega)]

lemma zipWith_getD {α β γ : Type} (f : α → β → γ) (da : α) (db : β) (dc : γ) :
    ∀ (la : List α) (lb : List β) (i : Nat), i < la.length → i < lb.length →
      (List.zipWith f la lb).getD i dc = f (la.getD i da) (lb.getD i db) := by
  intro la
  induction la with
  | nil => intro lb i h _; simp at h
  | cons a tla ih =>
    intro lb i h1 h2
    cases lb with
    | nil => simp at h2
    | cons b tlb =>
      cases i with
      | zero => simp [List.zipWith]
      | succ i' =>
        simp only [List.zipWith, List.getD_cons_succ]
        exact ih tlb i' (by simpa using h1) (by simpa using h2)

lemma getD_map {α β : Type} (f : α → β) (da : α) (db : β) :
    ∀ (l : List α) (i : Nat), i < l.length →
      (l.map f).getD i db = f (l.getD i da) := by
  intro l
  induction l with
  | nil => intro i h; simp at h
  | cons a tl ih =>
    intro i h
    cases i with
    | zero => simp
    | succ i' =>
      simp only [List.map_cons, List.getD_cons_succ]
      exact ih i' (by simpa using h)

lemma getD_range (d n i : Nat) (h : i < n) : (List.range n).getD i d = i := by
  rw [List.getD_eq_getElem _ _ (by simpa using h)]
  exact List.getElem_range i _

lemma getD_mem {α : Type} (d : α) :
    ∀ (l : List α) (i : Nat), i < l.length → l.getD i d ∈ l := by
  intro l
  induction l with
  | nil => intro i h; simp at h
  | cons a tl ih =>
    intro i h
    cases i with
    | zero => simp
    | succ i' =>
      simp only [List.getD_cons_succ]
      exact List.mem_cons_of_mem a (ih i' (by simpa using h))

/-! ### Rectangularity facts -/

lemma width_of_rect {α : Type} {img : List (List α)} {w h : Nat}
    (hr : Rect img w h) (hh : 0 < h) : width img = w := by
  obtain ⟨hl, hrow⟩ := hr
  cases img with
  | nil => simp at hl; omega
  | cons r tl => simpa [width] using hrow r (List.mem_cons_self r tl)

lemma rect_row_len {α : Type} {img : List (List α)} {w h : Nat}
    (hr : Rect img w h) (i : Nat) (hi : i < h) : (img.getD i []).length = w :=
  hr.2 _ (getD_mem [] img i (by rw [hr.1]; exact hi))

/-! ### The leftmost minimum of the bottom row -/

lemma argminLeft_succ {α : Type} [LinearOrder α] (f : Nat → α) (n : Nat) :
    argminLeft f (n + 1) = if f n < f (argminLeft f n) then n else argminLeft f n := by
  unfold argminLeft
  rw [List.range_succ, List.foldl_append]
  rfl

lemma argminLeft_spec {α : Type} [LinearOrder α] (f : Nat → α) :
    ∀ n, 0 < n → argminLeft f n < n ∧ (∀ j < n, f (argminLeft f n) ≤ f j) ∧
      (∀ j < argminLeft f n, f (argminLeft f n) < f j) := by
  intro n
  induction n with
  | zero => intro h; exact absurd h (lt_irrefl 0)
  | succ n ih =>
    intro _
    rw [argminLeft_succ]
    by_cases hn : 0 < n
    · obtain ⟨hlt, hmin, hleft⟩ := ih hn
      by_cases hc : f n < f (argminLeft f n)
      · rw [if_pos hc]
        refine ⟨by omega, ?_, ?_⟩
        · intro j hj
          rcases Nat.lt_succ_iff_lt_or_eq.mp hj with hj' | rfl
          · exact le_of_lt (lt_of_lt_of_le hc (hmin j hj'))
          · exact le_refl _
        · intro j hj
          exact lt_of_lt_of_le hc (hmin j hj)
      · rw [if_neg hc]
        refine ⟨by omega, ?_, hleft⟩
        intro j hj
        rcases Nat.lt_succ_iff_lt_or_eq.mp hj with hj' | rfl
        · exact hmin j hj'
        · exact not_lt.mp hc
    · have hn0 : n = 0 := by omega
      subst hn0
      have h0 : argminLeft f 0 = 0 := rfl
      rw [h0, if_neg (lt_irrefl (f 0))]
      refine ⟨by omega, ?_, ?_⟩
      · intro j hj
        have hj0 : j = 0 := by omega
        subst hj0; exact le_refl _
      · intro j hj
        exact absurd hj (Nat.not_lt_zero j)

lemma argminLeft_lt {α : Type} [LinearOrder α] (f : Nat → α) (n : Nat) (h : 0 < n) :
    argminLeft f n < n :=
  (argminLeft_spec f n h).1

/-! ### Backtracking steps -/

lemma backStep_eq {α : Type} [LinearOrder α] (c : Nat → Nat → α) (cols i prev : Nat) :
    backStep c cols i prev =
      if 0 < prev ∧ c i (prev - 1) < c i prev then
        (if prev + 1 < cols ∧ c i (prev + 1) < c i (prev - 1) then prev + 1 else prev - 1)
      else
        (if prev + 1 < cols ∧ c i (prev + 1) < c i prev then prev + 1 else prev) := by
  unfold backStep
  by_cases h1 : 0 < prev ∧ c i (prev - 1) < c i prev <;> simp [h1]

lemma backStep_lt {α : Type} [LinearOrder α] (c : Nat → Nat → α) (cols i prev : Nat)
    (hp : prev < cols) : backStep c cols i prev < cols := by
  rw [backStep_eq]
  split
  · split
    · rename_i h2; exact h2.1
    · omega
  · split
    · rename_i h2; exact h2.1
    · exact hp

lemma backStep_adj {α : Type} [LinearOrder α] (c : Nat → Nat → α) (cols i prev : Nat) :
    backStep c cols i prev ≤ prev + 1 ∧ prev ≤ backStep c cols i prev + 1 := by
  rw [backStep_eq]
  split
  · rename_i h1
    have h1' : 0 < prev := h1.1
    split <;> omega
  · split <;> omega

/-! ### The extracted seam -/

lemma seamColAux_lt {α : Type} [LinearOrder α] (c : Nat → Nat → α) (cols bottom : Nat)
    (hc : 0 < cols) : ∀ k, seamColAux c cols bottom k < cols := by
  intro k
  induction k with
  | zero => exact argminLeft_lt (c bottom) cols hc
  | succ k ih =>
    rw [seamColAux]
    exact backStep_lt _ _ _ _ ih

lemma seamEntry_lt {α : Type} [LinearOrder α] (c : Nat → Nat → α) (rows cols i : Nat)
    (hc : 0 < cols) : seamEntry c rows cols i < cols :=
  seamColAux_lt c cols (rows - 1) hc _

lemma seamEntry_step {α : Type} [LinearOrder α] (c : Nat → Nat → α) (rows cols i : Nat)
    (hi : i + 1 < rows) :
    seamEntry c rows cols i = backStep c cols i (seamEntry c rows cols (i + 1)) := by
  unfold seamEntry
  have h1 : rows - 1 - i = (rows - 1 - (i + 1)) + 1 := by omega
  rw [h1]
  rw [seamColAux]
  congr 1
  omega

lemma seamSearch_length {α : Type} [LinearOrder α] [Add α] (e : Nat → Nat → α)
    (rows cols : Nat) : (seamSearch e rows cols).length = rows := by
  simp [seamSearch]

lemma seamSearch_getD {α : Type} [LinearOrder α] [Add α] (e : Nat → Nat → α)
    (rows cols i : Nat) (hi : i < rows) :
    (seamSearch e rows cols).getD i 0 =
      seamEntry (cumSweep e rows cols) rows cols i := by
  unfold seamSearch
  rw [getD_map _ 0 _ _ _ (by simpa using hi)]
  rw [getD_range 0 rows i hi]

lemma seamSearch_mem {α : Type} [LinearOrder α] [Add α] (e : Nat → Nat → α)
    (rows cols : Nat) (hc : 0 < cols) : ∀ x ∈ seamSearch e rows cols, x < cols := by
  intro x hx
  simp only [seamSearch, List.mem_map, List.mem_range] at hx
  obtain ⟨i, _, rfl⟩ := hx
  exact seamEntry_lt _ rows cols i hc

/-! ### Correctness of the in-place cumulative-energy sweep -/

lemma foldCells_other {α : Type} [LinearOrder α] [Add α] (cols idx : Nat) :
    ∀ (l : List Nat) (g : Nat → Nat → α) (i' j' : Nat), i' ≠ idx →
      (l.foldl (fun g' j => setCell g' idx j (g' idx j + upMin3 (g' (idx - 1)) cols j)) g)
        i' j' = g i' j' := by
  intro l
  induction l with
  | nil => intro g i' j' _; rfl
  | cons a tl ih =>
    intro g i' j' h
    simp only [List.foldl_cons]
    rw [ih _ i' j' h]
    simp only [setCell]
    rw [if_neg]
    rintro ⟨h1, -⟩
    exact h h1

lemma foldCells_notYet {α : Type} [LinearOrder α] [Add α] (cols idx : Nat) :
    ∀ (l : List Nat) (g : Nat → Nat → α) (j' : Nat), (∀ b ∈ l, b ≠ j') →
      (l.foldl (fun g' j => setCell g' idx j (g' idx j + upMin3 (g' (idx - 1)) cols j)) g)
        idx j' = g idx j' := by
  intro l
  induction l with
  | nil => intro g j' _; rfl
  | cons a tl ih =>
    intro g j' h
    simp only [List.foldl_cons]
    rw [ih _ j' (fun b hb => h b (List.mem_cons_of_mem a hb))]
    simp only [setCell]
    rw [if_neg]
    rintro ⟨-, h2⟩
    exact h a (List.mem_cons_self a tl) h2.symm

lemma foldCells_at {α : Type} [LinearOrder α] [Add α] (cols idx : Nat) (hidx : 0 < idx) :
    ∀ (m : Nat) (g : Nat → Nat → α) (j : Nat), j < m →
      ((List.range m).foldl
          (fun g' j => setCell g' idx j (g' idx j + upMin3 (g' (idx - 1)) cols j)) g)
        idx j = g idx j + upMin3 (g (idx - 1)) cols j := by
  intro m
  induction m with
  | zero => intro g j hj; exact absurd hj (Nat.not_lt_zero j)
  | succ m ih =>
    intro g j hj
    simp only [List.range_succ, List.foldl_append, List.foldl_cons, List.foldl_nil]
    by_cases hjm : j = m
    · subst hjm
      simp only [setCell, eq_self_iff_true, and_self, if_true]
      have hF1 : (List.range j).foldl
          (fun g' j => setCell g' idx j (g' idx j + upMin3 (g' (idx - 1)) cols j)) g idx j
          = g idx j := by
        apply foldCells_notYet
        intro b hb
        rw [List.mem_range] at hb
        omega
      have hF2 : (List.range j).foldl
          (fun g' j => setCell g' idx j (g' idx j + upMin3 (g' (idx - 1)) cols j)) g (idx - 1)
          = g (idx - 1) := by
        funext j'
        exact foldCells_other cols idx (List.range j) g (idx - 1) j' (by omega)
      rw [hF1, hF2]
    · simp only [setCell]
      rw [if_neg (by rintro ⟨-, h2⟩; exact hjm h2)]
      exact ih g j (by omega)

lemma rowPass_other {α : Type} [LinearOrder α] [Add α] (cols idx : Nat)
    (g : Nat → Nat → α) (i' j' : Nat) (h : i' ≠ idx) :
    rowPass cols idx g i' j' = g i' j' :=
  foldCells_other cols idx (List.range cols) g i' j' h

lemma rowPass_at {α : Type} [LinearOrder α] [Add α] (cols idx : Nat) (hidx : 0 < idx)
    (g : Nat → Nat → α) (j : Nat) (hj : j < cols) :
    rowPass cols idx g idx j = g idx j + upMin3 (g (idx - 1)) cols j :=
  foldCells_at cols idx hidx cols g j hj

lemma upMin3_congr {α : Type} [LinearOrder α] (prev1 prev2 : Nat → α) (cols j : Nat)
    (h : ∀ j' < cols, prev1 j' = prev2 j') (hj : j < cols) :
    upMin3 prev1 cols j = upMin3 prev2 cols j := by
  unfold upMin3
  by_cases h2 : j + 1 < cols
  · simp only [if_pos h2]
    rw [h j hj, h (j - 1) (by omega), h (j + 1) h2]
  · simp only [if_neg h2]
    rw [h j hj, h (j - 1) (by omega)]

lemma sweepFold_correct {α : Type} [LinearOrder α] [Add α] (e : Nat → Nat → α) (cols : Nat) :
    ∀ m : Nat,
      (∀ i j, i ≤ m → j < cols →
        ((List.range' 1 m).foldl (fun g i => rowPass cols i g) e) i j = cumE e cols i j) ∧
      (∀ i j, m < i →
        ((List.range' 1 m).foldl (fun g i => rowPass cols i g) e) i j = e i j) := by
  intro m
  induction m with
  | zero =>
    constructor
    · intro i j hi _
      obtain rfl : i = 0 := by omega
      rfl
    · intro i j _
      rfl
  | succ m ih =>
    have hconc : List.range' 1 (m + 1) = List.range' 1 m ++ [1 + m] := by
      have h := @List.range'_concat 1 1 m
      simpa using h
    simp only [hconc, List.foldl_append, List.foldl_cons, List.foldl_nil]
    constructor
    · intro i j hi hj
      by_cases him : i ≤ m
      · rw [rowPass_other _ _ _ i j (by omega)]
        exact ih.1 i j him hj
      · have hieq : i = 1 + m := by omega
        subst hieq
        rw [rowPass_at _ _ (by omega) _ j hj]
        rw [ih.2 (1 + m) j (by omega)]
        have hm1 : 1 + m - 1 = m := by omega
        rw [hm1]
        rw [upMin3_congr _ (cumE e cols m) cols j
          (fun j' hj' => ih.1 m j' (le_refl m) hj') hj]
        rw [show 1 + m = m + 1 from by omega]
        rfl
    · intro i j hi
      rw [rowPass_other _ _ _ i j (by omega)]
      exact ih.2 i j (by omega)

lemma cumSweep_eq_cumE {α : Type} [LinearOrder α] [Add α] (e : Nat → Nat → α)
    (rows cols i j : Nat) (hi : i < rows) (hj : j < cols) :
    cumSweep e rows cols i j = cumE e cols i j := by
  unfold cumSweep
  exact (sweepFold_correct e cols (rows - 1)).1 i j (by omega) hj

/-! ### Dimensions through seam removal, transposition, and the loops -/

lemma removeVerSeam_row_mem {α : Type} {w : Nat} :
    ∀ (img : List (List α)) (seam : List Nat),
      (∀ r ∈ img, r.length = w) → (∀ s ∈ seam, s < w) →
      ∀ r ∈ removeVerSeam img seam, r.length = w - 1 := by
  intro img
  induction img with
  | nil => intro seam _ _ r hr; simp [removeVerSeam] at hr
  | cons row tl ih =>
    intro seam hrow hs r hr
    cases seam with
    | nil => simp [removeVerSeam] at hr
    | cons s stl =>
      simp only [removeVerSeam, List.zipWith_cons_cons] at hr
      rcases List.mem_cons.mp hr with rfl | hr'
      · have hlen : row.length = w := hrow row (List.mem_cons_self row tl)
        rw [remRow_length row s (by rw [hlen]; exact hs s (List.mem_cons_self s stl)), hlen]
      · exact ih stl (fun r' hr' => hrow r' (List.mem_cons_of_mem row hr'))
          (fun s' hs' => hs s' (List.mem_cons_of_mem s hs')) r hr'

lemma removeVerSeam_rect {α : Type} {img : List (List α)} {w h : Nat}
    (hr : Rect img w h) {seam : List Nat} (hlen : seam.length = h)
    (hmem : ∀ s ∈ seam, s < w) : Rect (removeVerSeam img seam) (w - 1) h := by
  constructor
  · simp only [removeVerSeam, List.length_zipWith, hr.1, hlen]
    omega
  · exact removeVerSeam_row_mem img seam hr.2 hmem

lemma transposeImg_rect {img : List (List Pix)} {w h : Nat}
    (hr : Rect img w h) (hh : 0 < h) : Rect (transposeImg img) h w := by
  have hwid := width_of_rect hr hh
  constructor
  · simp [transposeImg, hwid]
  · intro r hrm
    simp only [transposeImg, List.mem_map, List.mem_range] at hrm
    obtain ⟨j, _, rfl⟩ := hrm
    simp [hr.1]

lemma seamCarStep_rect {img : List (List Pix)} {w h : Nat}
    (hr : Rect img w h) (hw : 0 < w) (hh : 0 < h) :
    Rect (seamCarStep img) (w - 1) h := by
  have hwid : width img = w := width_of_rect hr hh
  unfold seamCarStep
  apply removeVerSeam_rect hr
  · rw [seamSearch_length]
    exact hr.1
  · intro s hs
    have := seamSearch_mem (energyCal img).val (energyCal img).rows (energyCal img).cols
      (by show 0 < width img; omega) s hs
    show s < w
    have hcols : (energyCal img).cols = width img := rfl
    omega

lemma widthLoopF_ok :
    ∀ (fuel : Nat) (img : List (List Pix)) (w h : Nat) (t : Int),
      Rect img w h → 0 < h → 1 ≤ t → t ≤ (w : Int) → (w : Int) ≤ t + fuel →
      ∃ out, widthLoopF fuel t img = some out ∧ Rect out t.toNat h := by
  intro fuel
  induction fuel with
  | zero =>
    intro img w h t hr hh ht hle hfu
    simp only [widthLoopF]
    rw [width_of_rect hr hh]
    rw [if_neg (by omega)]
    refine ⟨img, rfl, ?_⟩
    rw [show t.toNat = w from by omega]
    exact hr
  | succ f ih =>
    intro img w h t hr hh ht hle hfu
    simp only [widthLoopF]
    rw [width_of_rect hr hh]
    by_cases hgt : (w : Int) > t
    · rw [if_pos hgt, if_neg (by omega : ¬ w = 0)]
      have hstep := seamCarStep_rect hr (by omega) hh
      exact ih (seamCarStep img) (w - 1) h t hstep hh ht (by omega) (by omega)
    · rw [if_neg hgt]
      refine ⟨img, rfl, ?_⟩
      rw [show t.toNat = w from by omega]
      exact hr

lemma widthLoop_ok {img : List (List Pix)} {w h : Nat} {t : Int}
    (hr : Rect img w h) (hh : 0 < h) (ht : 1 ≤ t) (hle : t ≤ (w : Int)) :
    ∃ out, widthLoop t img = some out ∧ Rect out t.toNat h := by
  unfold widthLoop
  rw [width_of_rect hr hh]
  exact widthLoopF_ok w img w h t hr hh ht hle (by omega)

lemma heightLoopF_ok :
    ∀ (fuel : Nat) (img : List (List Pix)) (w h : Nat) (t : Int),
      Rect img w h → 0 < w → 1 ≤ t → t ≤ (h : Int) → (h : Int) ≤ t + fuel →
      ∃ out, heightLoopF fuel t img = some out ∧ Rect out w t.toNat := by
  intro fuel
  induction fuel with
  | zero =>
    intro img w h t hr hw ht hle hfu
    simp only [heightLoopF]
    rw [hr.1]
    rw [if_neg (by omega)]
    refine ⟨img, rfl, ?_⟩
    rw [show t.toNat = h from by omega]
    exact hr
  | succ f ih =>
    intro img w h t hr hw ht hle hfu
    simp only [heightLoopF]
    rw [hr.1]
    by_cases hgt : (h : Int) > t
    · rw [if_pos hgt]
      have hh : 0 < h := by omega
      rw [if_neg (by rw [width_of_rect hr hh]; omega)]
      have h1 : Rect (transposeImg img) h w := transposeImg_rect hr hh
      have h2 : Rect (seamCarStep (transposeImg img)) (h - 1) w :=
        seamCarStep_rect h1 hh hw
      have h3 : Rect (transposeImg (seamCarStep (transposeImg img))) w (h - 1) :=
        transposeImg_rect h2 hw
      exact ih _ w (h - 1) t h3 hw ht (by omega) (by omega)
    · rw [if_neg hgt]
      refine ⟨img, rfl, ?_⟩
      rw [show t.toNat = h from by omega]
      exact hr

lemma heightLoop_ok {img : List (List Pix)} {w h : Nat} {t : Int}
    (hr : Rect img w h) (hw : 0 < w) (ht : 1 ≤ t) (hle : t ≤ (h : Int)) :
    ∃ out, heightLoop t img = some out ∧ Rect out w t.toNat := by
  unfold heightLoop
  rw [hr.1]
  exact heightLoopF_ok h img w h t hr hw ht hle (by omega)

lemma seamCar_ok {img : List (List Pix)} {w h : Nat} {tW tH : Int}
    (hr : Rect img w h) (h1 : 1 ≤ tW) (h2 : tW < (w : Int))
    (h3 : 1 ≤ tH) (h4 : tH < (h : Int)) :
    ∃ out, seamCar img tW tH = .ok out ∧ Rect out tW.toNat tH.toNat := by
  have hh : 0 < h := by omega
  unfold seamCar
  rw [width_of_rect hr hh, hr.1]
  rw [if_neg (by omega)]
  obtain ⟨o1, ho1, hro1⟩ := widthLoop_ok hr hh h1 (le_of_lt h2)
  obtain ⟨o2, ho2, hro2⟩ := heightLoop_ok hro1 (by omega) h3 (le_of_lt h4)
  rw [ho1]
  simp only [ho2]
  exact ⟨o2, rfl, hro2⟩

/-! ### The claims -/

/-- C1: for every W×H image and every target pair (W', H') satisfying the
driver's precondition (W' < W, H' < H, W' ≥ 1, H' ≥ 1), the resize operation
`seamCar` terminates normally and returns an image of dimensions exactly
W'×H'. -/
theorem c1_resize_dims (img : List (List Pix)) (w h : Nat) (tW tH : Int)
    (hr : Rect img w h) (h1 : 1 ≤ tW) (h2 : tW < (w : Int))
    (h3 : 1 ≤ tH) (h4 : tH < (h : Int)) :
    ∃ out, seamCar img tW tH = .ok out ∧ Rect out tW.toNat tH.toNat :=
  seamCar_ok hr h1 h2 h3 h4

theorem c1_witness :
    (Rect (List.replicate 2 (List.replicate 2 (Pix.mk 7 7 7))) 2 2 ∧
      1 ≤ (1 : Int) ∧ (1 : Int) < ((2 : Nat) : Int)) ∧
    ∃ out, seamCar (List.replicate 2 (List.replicate 2 (Pix.mk 7 7 7))) 1 1 = .ok out ∧
      Rect out 1 1 :=
  ⟨⟨by decide, by decide, by decide⟩,
    c1_resize_dims (List.replicate 2 (List.replicate 2 (Pix.mk 7 7 7))) 2 2 1 1
      (by decide) (by decide) (by decide) (by decide) (by decide)⟩

/-- C2: for every non-empty `rows`×`cols` energy field, the seam returned by
the Seam Finder has length `rows`, every entry lies in [0, cols), and any two
adjacent entries differ by at most 1. -/
theorem c2_seam_shape {α : Type} [LinearOrder α] [Add α] (e : Nat → Nat → α)
    (rows cols : Nat) (hrows : 0 < rows) (hc : 0 < cols) :
    (seamSearch e rows cols).length = rows ∧
    (∀ x ∈ seamSearch e rows cols, x < cols) ∧
    (∀ i, i + 1 < rows →
      (((seamSearch e rows cols).getD i 0 : ℤ) -
        ((seamSearch e rows cols).getD (i + 1) 0 : ℤ)).natAbs ≤ 1) := by
  refine ⟨seamSearch_length e rows cols, seamSearch_mem e rows cols hc, ?_⟩
  intro i hi
  rw [seamSearch_getD e rows cols i (by omega), seamSearch_getD e rows cols (i + 1) hi]
  rw [seamEntry_step _ rows cols i hi]
  have hadj := backStep_adj (cumSweep e rows cols) cols i
    (seamEntry (cumSweep e rows cols) rows cols (i + 1))
  omega

theorem c2_witness :
    (0 < 2 ∧ 0 < 3) ∧
    ((seamSearch (fun i j => i + j) 2 3).length = 2 ∧
      (∀ x ∈ seamSearch (fun i j => i + j) 2 3, x < 3) ∧
      (∀ i, i + 1 < 2 →
        (((seamSearch (fun i j => i + j) 2 3).getD i 0 : ℤ) -
          ((seamSearch (fun i j => i + j) 2 3).getD (i + 1) 0 : ℤ)).natAbs ≤ 1)) :=
  ⟨⟨by decide, by decide⟩, c2_seam_shape (fun i j => i + j) 2 3 (by decide) (by decide)⟩

/-- C3: for every W×H image with W ≥ 2 and every length-H seam with entries in
[0, W), the Seam Remover returns a (W−1)×H image whose pixel at row `i`,
column `j` equals, bit-exactly, the input pixel at column `j` when
`j < seam[i]` and the input pixel at column `j + 1` otherwise. -/
theorem c3_remove_preserves {α : Type} (img : List (List α)) (w h : Nat)
    (seam : List Nat) (d : α) (hr : Rect img w h) (hw : 2 ≤ w)
    (hlen : seam.length = h) (hmem : ∀ s ∈ seam, s < w) :
    Rect (removeVerSeam img seam) (w - 1) h ∧
    ∀ i j, i < h → j < w - 1 →
      ((removeVerSeam img seam).getD i []).getD j d =
        if j < seam.getD i 0 then (img.getD i []).getD j d
        else (img.getD i []).getD (j + 1) d := by
  refine ⟨removeVerSeam_rect hr hlen hmem, ?_⟩
  intro i j hi hj
  have hgd : (removeVerSeam img seam).getD i [] =
      remRow (img.getD i []) (seam.getD i 0) := by
    unfold removeVerSeam
    exact zipWith_getD remRow [] 0 [] img seam i (by rw [hr.1]; exact hi)
      (by rw [hlen]; exact hi)
  rw [hgd]
  have hrow := rect_row_len hr i hi
  have hsmem : seam.getD i 0 ∈ seam := getD_mem 0 seam i (by rw [hlen]; exact hi)
  rw [remRow_getD d (img.getD i []) (seam.getD i 0) j
    (by rw [hrow]; exact hmem _ hsmem) (by rw [hrow]; omega)]

theorem c3_witness :
    (Rect [[10, 20], [30, 40]] 2 2 ∧ 2 ≤ 2 ∧ ([0, 1] : List Nat).length = 2 ∧
      ∀ s ∈ ([0, 1] : List Nat), s < 2) ∧
    (Rect (removeVerSeam [[10, 20], [30, 40]] [0, 1]) 1 2 ∧
      ∀ i j, i < 2 → j < 1 →
        ((removeVerSeam [[10, 20], [30, 40]] [0, 1]).getD i []).getD j 99 =
          if j < ([0, 1] : List Nat).getD i 0 then (([[10, 20], [30, 40]]).getD i []).getD j 99
          else (([[10, 20], [30, 40]]).getD i []).getD (j + 1) 99) :=
  ⟨⟨by decide, by decide, by decide, by decide⟩,
    c3_remove_preserves [[10, 20], [30, 40]] 2 2 [0, 1] 99
      (by decide) (by decide) (by decide) (by decide)⟩

/-- C4: the Seam Finder's tie-breaking is exactly as specified: the bottom-row
start is the leftmost column achieving the minimum of the last cumulative row,
each higher entry is a `backStep` from the entry below, and `backStep`
compares candidates with strict less-than in the order (straight, left,
right), so the straight column wins a tie with either neighbour and the left
neighbour wins a tie with the right. -/
theorem c4_tiebreak {α : Type} [LinearOrder α] [Add α] (e : Nat → Nat → α)
    (rows cols : Nat) (hrows : 0 < rows) (hc : 0 < cols) :
    ((seamSearch e rows cols).getD (rows - 1) 0 =
      argminLeft (cumSweep e rows cols (rows - 1)) cols) ∧
    (∀ j < cols,
      cumSweep e rows cols (rows - 1)
          (argminLeft (cumSweep e rows cols (rows - 1)) cols) ≤
        cumSweep e rows cols (rows - 1) j) ∧
    (∀ j < argminLeft (cumSweep e rows cols (rows - 1)) cols,
      cumSweep e rows cols (rows - 1)
          (argminLeft (cumSweep e rows cols (rows - 1)) cols) <
        cumSweep e rows cols (rows - 1) j) ∧
    (∀ i, i + 1 < rows →
      (seamSearch e rows cols).getD i 0 =
        backStep (cumSweep e rows cols) cols i
          ((seamSearch e rows cols).getD (i + 1) 0)) ∧
    (∀ (c : Nat → Nat → α) (i prev : Nat), prev < cols →
      ((0 < prev → ¬ c i (prev - 1) < c i prev) →
        (prev + 1 < cols → ¬ c i (prev + 1) < c i prev) →
        backStep c cols i prev = prev) ∧
      (0 < prev → c i (prev - 1) < c i prev →
        (prev + 1 < cols → ¬ c i (prev + 1) < c i (prev - 1)) →
        backStep c cols i prev = prev - 1) ∧
      (prev + 1 < cols → c i (prev + 1) < c i prev →
        (0 < prev → ¬ c i (prev - 1) < c i prev) →
        backStep c cols i prev = prev + 1)) := by
  refine ⟨?_, (argminLeft_spec _ cols hc).2.1, (argminLeft_spec _ cols hc).2.2, ?_, ?_⟩
  · rw [seamSearch_getD e rows cols (rows - 1) (by omega)]
    unfold seamEntry
    rw [Nat.sub_self]
    rfl
  · intro i hi
    rw [seamSearch_getD e rows cols i (by omega), seamSearch_getD e rows cols (i + 1) hi]
    exact seamEntry_step _ rows cols i hi
  · intro c i prev hp
    refine ⟨?_, ?_, ?_⟩
    · intro hL hR
      rw [backStep_eq]
      rw [if_neg (by rintro ⟨a, b⟩; exact hL a b)]
      rw [if_neg (by rintro ⟨a, b⟩; exact hR a b)]
    · intro h0 hL hR
      rw [backStep_eq, if_pos ⟨h0, hL⟩, if_neg (by rintro ⟨a, b⟩; exact hR a b)]
    · intro h1 h2 h3
      rw [backStep_eq, if_neg (by rintro ⟨a, b⟩; exact h3 a b), if_pos ⟨h1, h2⟩]

theorem c4_witness :
    (0 < 2 ∧ 0 < 2) ∧
    (((seamSearch (fun i j => 2 * i + j) 2 2).getD (2 - 1) 0 =
        argminLeft (cumSweep (fun i j => 2 * i + j) 2 2 (2 - 1)) 2) ∧
      (∀ j < 2,
        cumSweep (fun i j => 2 * i + j) 2 2 (2 - 1)
            (argminLeft (cumSweep (fun i j => 2 * i + j) 2 2 (2 - 1)) 2) ≤
          cumSweep (fun i j => 2 * i + j) 2 2 (2 - 1) j) ∧
      (∀ j < argminLeft (cumSweep (fun i j => 2 * i + j) 2 2 (2 - 1)) 2,
        cumSweep (fun i j => 2 * i + j) 2 2 (2 - 1)
            (argminLeft (cumSweep (fun i j => 2 * i + j) 2 2 (2 - 1)) 2) <
          cumSweep (fun i j => 2 * i + j) 2 2 (2 - 1) j) ∧
      (∀ i, i + 1 < 2 →
        (seamSearch (fun i j => 2 * i + j) 2 2).getD i 0 =
          backStep (cumSweep (fun i j => 2 * i + j) 2 2) 2 i
            ((seamSearch (fun i j => 2 * i + j) 2 2).getD (i + 1) 0)) ∧
      (∀ (c : Nat → Nat → Nat) (i prev : Nat), prev < 2 →
        ((0 < prev → ¬ c i (prev - 1) < c i prev) →
          (prev + 1 < 2 → ¬ c i (prev + 1) < c i prev) →
          backStep c 2 i prev = prev) ∧
        (0 < prev → c i (prev - 1) < c i prev →
          (prev + 1 < 2 → ¬ c i (prev + 1) < c i (prev - 1)) →
          backStep c 2 i prev = prev - 1) ∧
        (prev + 1 < 2 → c i (prev + 1) < c i prev →
          (0 < prev → ¬ c i (prev - 1) < c i prev) →
          backStep c 2 i prev = prev + 1))) :=
  ⟨⟨by decide, by decide⟩,
    c4_tiebreak (fun i j => 2 * i + j) 2 2 (by decide) (by decide)⟩

/-- C5: after the DP loop, the cumulative energy field satisfies the
specification's recurrence — row 0 equals the energy row 0 and every later
cell is its own energy plus the minimum of its upper neighbours in the row
above — and the in-place sweep agrees with the double-buffered computation
`cumE`, because each update reads only row `i − 1`. -/
theorem c5_cumulative_recurrence {α : Type} [LinearOrder α] [Add α]
    (e : Nat → Nat → α) (rows cols i j : Nat) (hi : i < rows) (hj : j < cols) :
    cumSweep e rows cols 0 j = e 0 j ∧
    (1 ≤ i → cumSweep e rows cols i j =
      e i j + upMin3 (cumSweep e rows cols (i - 1)) cols j) ∧
    cumSweep e rows cols i j = cumE e cols i j := by
  have key : ∀ i' j', i' < rows → j' < cols →
      cumSweep e rows cols i' j' = cumE e cols i' j' :=
    fun i' j' hi' hj' => cumSweep_eq_cumE e rows cols i' j' hi' hj'
  refine ⟨?_, ?_, key i j hi hj⟩
  · rw [key 0 j (by omega) hj]
    rfl
  · intro h1
    obtain ⟨i', rfl⟩ : ∃ i', i = i' + 1 := ⟨i - 1, by omega⟩
    rw [key (i' + 1) j hi hj]
    simp only [Nat.add_sub_cancel]
    rw [upMin3_congr (cumSweep e rows cols i') (cumE e cols i') cols j
      (fun j' hj' => key i' j' (by omega) hj') hj]
    rfl

theorem c5_witness :
    (1 < 3 ∧ 0 < 2) ∧
    (cumSweep (fun i j => i + 2 * j) 3 2 0 0 = 0 ∧
      (1 ≤ 1 → cumSweep (fun i j => i + 2 * j) 3 2 1 0 =
        1 + upMin3 (cumSweep (fun i j => i + 2 * j) 3 2 (1 - 1)) 2 0) ∧
      cumSweep (fun i j => i + 2 * j) 3 2 1 0 = cumE (fun i j => i + 2 * j) 2 1 0) :=
  ⟨⟨by decide, by decide⟩,
    c5_cumulative_recurrence (fun i j => i + 2 * j) 3 2 1 0 (by decide) (by decide)⟩

/-- C6: for every pixel (x, y) of a non-empty image the Energy Map Builder
computes sqrt(gx² + gy²), where gx is the central grayscale difference at
interior columns, the forward difference at the left edge, the backward
difference at the right edge, and 0 when W = 1, with gy symmetric over rows;
the energy field carries the same W×H dimensions as the image. -/
theorem c6_energy_gradients (gray : Nat → Nat → Nat) (w h y x : Nat)
    (img : List (List Pix)) (hx : x < w) (hy : y < h) :
    (0 < x → x + 1 < w →
      gradX gray w y x = (gray y (x + 1) : ℤ) - (gray y (x - 1) : ℤ)) ∧
    (x = 0 → 1 < w →
      gradX gray w y x = (gray y (x + 1) : ℤ) - (gray y x : ℤ)) ∧
    (x + 1 = w → 1 < w →
      gradX gray w y x = (gray y x : ℤ) - (gray y (x - 1) : ℤ)) ∧
    (w = 1 → gradX gray w y x = 0) ∧
    (0 < y → y + 1 < h →
      gradY gray h y x = (gray (y + 1) x : ℤ) - (gray (y - 1) x : ℤ)) ∧
    (y = 0 → 1 < h →
      gradY gray h y x = (gray (y + 1) x : ℤ) - (gray y x : ℤ)) ∧
    (y + 1 = h → 1 < h →
      gradY gray h y x = (gray y x : ℤ) - (gray (y - 1) x : ℤ)) ∧
    (h = 1 → gradY gray h y x = 0) ∧
    energyAt gray h w y x =
      Real.sqrt ((gradX gray w y x : ℝ) ^ 2 + (gradY gray h y x : ℝ) ^ 2) ∧
    (energyCal img).rows = img.length ∧ (energyCal img).cols = width img := by
  refine ⟨?_, ?_, ?_, ?_, ?_, ?_, ?_, ?_, ?_, rfl, rfl⟩
  · intro a b; unfold gradX; rw [if_pos ⟨a, b⟩]
  · intro a b; unfold gradX; rw [if_neg (by omega), if_pos ⟨a, b⟩]
  · intro a b; unfold gradX; rw [if_neg (by omega), if_neg (by omega), if_pos ⟨a, b⟩]
  · intro a; unfold gradX; rw [if_neg (by omega), if_neg (by omega), if_neg (by omega)]
  · intro a b; unfold gradY; rw [if_pos ⟨a, b⟩]
  · intro a b; unfold gradY; rw [if_neg (by omega), if_pos ⟨a, b⟩]
  · intro a b; unfold gradY; rw [if_neg (by omega), if_neg (by omega), if_pos ⟨a, b⟩]
  · intro a; unfold gradY; rw [if_neg (by omega), if_neg (by omega), if_neg (by omega)]
  · unfold energyAt; congr 1; ring

theorem c6_witness :
    (1 < 3 ∧ 0 < 2) ∧
    ((0 < 1 → 1 + 1 < 3 →
        gradX (fun i j => i * j) 3 0 1 = ((fun (i j : Nat) => i * j) 0 (1 + 1) : ℤ) -
          ((fun (i j : Nat) => i * j) 0 (1 - 1) : ℤ)) ∧
      (1 = 0 → 1 < 3 →
        gradX (fun i j => i * j) 3 0 1 = ((fun (i j : Nat) => i * j) 0 (1 + 1) : ℤ) -
          ((fun (i j : Nat) => i * j) 0 1 : ℤ)) ∧
      (1 + 1 = 3 → 1 < 3 →
        gradX (fun i j => i * j) 3 0 1 = ((fun (i j : Nat) => i * j) 0 1 : ℤ) -
          ((fun (i j : Nat) => i * j) 0 (1 - 1) : ℤ)) ∧
      (3 = 1 → gradX (fun i j => i * j) 3 0 1 = 0) ∧
      (0 < 0 → 0 + 1 < 2 →
        gradY (fun i j => i * j) 2 0 1 = ((fun (i j : Nat) => i * j) (0 + 1) 1 : ℤ) -
          ((fun (i j : Nat) => i * j) (0 - 1) 1 : ℤ)) ∧
      (0 = 0 → 1 < 2 →
        gradY (fun i j => i * j) 2 0 1 = ((fun (i j : Nat) => i * j) (0 + 1) 1 : ℤ) -
          ((fun (i j : Nat) => i * j) 0 1 : ℤ)) ∧
      (0 + 1 = 2 → 1 < 2 →
        gradY (fun i j => i * j) 2 0 1 = ((fun (i j : Nat) => i * j) 0 1 : ℤ) -
          ((fun (i j : Nat) => i * j) (0 - 1) 1 : ℤ)) ∧
      (2 = 1 → gradY (fun i j => i * j) 2 0 1 = 0) ∧
      energyAt (fun i j => i * j) 2 3 0 1 =
        Real.sqrt ((gradX (fun i j => i * j) 3 0 1 : ℝ) ^ 2 +
          (gradY (fun i j => i * j) 2 0 1 : ℝ) ^ 2) ∧
      (energyCal [[Pix.mk 1 2 3]]).rows = ([[Pix.mk 1 2 3]] : List (List Pix)).length ∧
      (energyCal [[Pix.mk 1 2 3]]).cols = width [[Pix.mk 1 2 3]]) :=
  ⟨⟨by decide, by decide⟩,
    c6_energy_gradients (fun i j => i * j) 3 2 0 1 [[Pix.mk 1 2 3]] (by decide) (by decide)⟩

/-- C7: whenever the target width is not strictly below the current width or
the target height is not strictly below the current height (including targets
equal to the current dimensions), the driver reports the invalid-input
condition and terminates without producing any output image. -/
theorem c7_invalid_rejected (img : List (List Pix)) (tW tH : Int)
    (hinv : (width img : Int) ≤ tW ∨ (img.length : Int) ≤ tH) :
    seamCar img tW tH = .error .invalidInput := by
  have hcond : tH ≥ (img.length : Int) ∨ tW ≥ (width img : Int) := by
    rcases hinv with hc | hc
    · right; exact hc
    · left; exact hc
  unfold seamCar
  rw [if_pos hcond]

theorem c7_witness :
    ((width [[Pix.mk 3 3 3]] : Int) ≤ 1 ∨ (([[Pix.mk 3 3 3]] : List (List Pix)).length : Int) ≤ 0) ∧
    seamCar [[Pix.mk 3 3 3]] 1 0 = .error .invalidInput :=
  ⟨by decide, c7_invalid_rejected [[Pix.mk 3 3 3]] 1 0 (by decide)⟩

/-- C8: the specification promises a nonzero exit code when the requested
target dimensions are invalid, but on a 2×2 image with requested target 2×2
(not strictly smaller) the program prints "Invalid Input" and calls
`exit(0)`: the process exit code is 0, not nonzero. -/
theorem c8_invalid_exit_code_is_zero :
    mainExit true (some (List.replicate 2 (List.replicate 2 (Pix.mk 9 9 9)))) 2 2 true =
      some 0 := by
  have hcar : seamCar (List.replicate 2 (List.replicate 2 (Pix.mk 9 9 9))) 2 2 =
      .error .invalidInput := by
    unfold seamCar
    rw [if_pos (by left; decide)]
  simp only [mainExit, hcar]
  rfl

/-- C9 counterexample: on a concrete 3×4 image whose width already equals the
target width 3 (target height 2) the driver does not skip the width phase and
produce a 3×2 output; the strict precondition `newWidth >= img.cols` fires
and the run is rejected as invalid input with no output image. -/
theorem c9_counterexample :
    seamCar (List.replicate 4 (List.replicate 3 (Pix.mk 1 1 1))) 3 2 =
      .error .invalidInput := by
  unfold seamCar
  rw [if_pos (by right; decide)]

/-- C9 amended: for every 3×4 input image and target (3, 2), the driver
reports the invalid-input condition and produces no output image, because the
precondition requires the target width to be strictly less than the current
width; a reducing phase whose axis already matches the target is never
entered, but only because the whole request is rejected. -/
theorem c9_width_equal_rejected (img : List (List Pix)) (hr : Rect img 3 4) :
    seamCar img 3 2 = .error .invalidInput := by
  have hcond : (2 : Int) ≥ (img.length : Int) ∨ (3 : Int) ≥ (width img : Int) := by
    right
    rw [width_of_rect hr (by omega : 0 < 4)]
    omega
  unfold seamCar
  rw [if_pos hcond]

theorem c9_witness :
    Rect (List.replicate 4 (List.replicate 3 (Pix.mk 2 2 2))) 3 4 ∧
    seamCar (List.replicate 4 (List.replicate 3 (Pix.mk 2 2 2))) 3 2 =
      .error .invalidInput :=
  ⟨by decide, c9_width_equal_rejected (List.replicate 4 (List.replicate 3 (Pix.mk 2 2 2)))
    (by decide)⟩

/-- C10: during the height-reduction phase, one loop iteration transposes the
image, removes one vertical seam from the transposed image, and transposes
back, so at the iteration boundary the image is again in its original
orientation with its width unchanged and its height decreased by exactly
one. -/
theorem c10_height_phase_frame (img : List (List Pix)) (w h : Nat) (t : Int)
    (hr : Rect img w h) (hw : 0 < w) (hh : 0 < h) (ht : t < (h : Int)) :
    Rect (transposeImg (seamCarStep (transposeImg img))) w (h - 1) ∧
    heightLoop t img = heightLoop t (transposeImg (seamCarStep (transposeImg img))) := by
  have h1 : Rect (transposeImg img) h w := transposeImg_rect hr hh
  have h2 : Rect (seamCarStep (transposeImg img)) (h - 1) w := seamCarStep_rect h1 hh hw
  have h3 : Rect (transposeImg (seamCarStep (transposeImg img))) w (h - 1) :=
    transposeImg_rect h2 hw
  refine ⟨h3, ?_⟩
  unfold heightLoop
  rw [hr.1, h3.1]
  obtain ⟨hp, rfl⟩ : ∃ hp, h = hp + 1 := ⟨h - 1, by omega⟩
  simp only [Nat.add_sub_cancel]
  simp only [heightLoopF]
  rw [if_pos (show ((img.length : Nat) : Int) > t by rw [hr.1]; exact ht)]
  rw [if_neg (by rw [width_of_rect hr hh, hr.1]; omega)]

theorem c10_witness :
    (Rect [[Pix.mk 1 2 3, Pix.mk 4 5 6], [Pix.mk 7 8 9, Pix.mk 3 2 1]] 2 2 ∧
      0 < 2 ∧ (1 : Int) < ((2 : Nat) : Int)) ∧
    (Rect (transposeImg (seamCarStep
        (transposeImg [[Pix.mk 1 2 3, Pix.mk 4 5 6], [Pix.mk 7 8 9, Pix.mk 3 2 1]]))) 2 1 ∧
      heightLoop 1 [[Pix.mk 1 2 3, Pix.mk 4 5 6], [Pix.mk 7 8 9, Pix.mk 3 2 1]] =
        heightLoop 1 (transposeImg (seamCarStep
          (transposeImg [[Pix.mk 1 2 3, Pix.mk 4 5 6], [Pix.mk 7 8 9, Pix.mk 3 2 1]])))) :=
  ⟨⟨by decide, by decide, by decide⟩,
    c10_height_phase_frame [[Pix.mk 1 2 3, Pix.mk 4 5 6], [Pix.mk 7 8 9, Pix.mk 3 2 1]]
      2 2 1 (by decide) (by decide) (by decide) (by decide)⟩
